import Mathlib

/-!
# Verification of snapborg's retention, result-aggregation and tag-tracking core

Shallow embedding of the snapborg repository's core logic:

* `snapborg/retention.py` (`get_retained_snapshots`): generational retention
  selection over dated items.  Python `datetime` values are modelled by the
  structure `DT` below (year/month/day/hour/minute/second/microsecond with the
  Gregorian calendar rules Python uses); `datetime.now()` becomes an explicit
  `now : DT` parameter.  Python's year range limits (MINYEAR = 1,
  MAXYEAR = 9999) are idealized away: years are unbounded integers.  The
  `while` loop of each retention tier is not structurally terminating (and the
  Python original genuinely fails to terminate normally for items dated at or
  after "now"), so it is modelled with an explicit fuel counter; `none` models
  a run in which the Python loop never reaches its exit condition.  The fuel
  supplied by `get_retained_snapshots` is proved (and generously over-sized)
  to be large enough for every run in which the Python loop does exit.
* `snapborg/results.py` (`CommandResult`, `ResultStatus`): hierarchical result
  status aggregation.
* `snapborg/commands/snapborg.py` (`backup_snapshot`, `backup_to_repo`):
  per-snapshot transfer result handling including the legacy-repository tag
  migration, and the per-repository `fail_after` fault-tolerance policy.
* `snapborg/snapper.py` (`SnapperSnapshot.set_backup_status` /
  `SnapperSnapshot.__init__`): the persisted backup-tag string encoding and
  its parser, modelled over `List Char`.

`config.py` is not present in the source tree (only its importers are), so
`LEGACY_REPO_NAME`, `RepoConfig.is_old_config` and `get_fail_after` are
modelled from the spec where needed.
-/

/-- Python `datetime.datetime`: a calendar timestamp.  Fields mirror
`year, month, day, hour, minute, second, microsecond`.  Years are unbounded
(Python restricts them to `[1, 9999]`; that bound is idealized away). -/
structure DT where
  year : Int
  month : Int
  day : Int
  hour : Int
  minute : Int
  second : Int
  usec : Int
deriving DecidableEq, Repr

/-- Python leap-year rule (`calendar.isleap`): divisible by 4 and
(not by 100 or by 400). -/
def isLeapYear (y : Int) : Bool :=
  y % 4 == 0 && (y % 100 != 0 || y % 400 == 0)

/-- Number of days in a month, as in Python's `calendar`/`datetime`. -/
def daysInMonth (y m : Int) : Int :=
  if m = 2 then (if isLeapYear y then 29 else 28)
  else if m = 4 ∨ m = 6 ∨ m = 9 ∨ m = 11 then 30
  else 31

/-- A `DT` that Python's `datetime` could actually hold (field ranges;
the year range is not bounded, see module comment). -/
def DTValid (x : DT) : Prop :=
  1 ≤ x.month ∧ x.month ≤ 12 ∧
  1 ≤ x.day ∧ x.day ≤ daysInMonth x.year x.month ∧
  0 ≤ x.hour ∧ x.hour < 24 ∧
  0 ≤ x.minute ∧ x.minute < 60 ∧
  0 ≤ x.second ∧ x.second < 60 ∧
  0 ≤ x.usec ∧ x.usec < 1000000

instance (x : DT) : Decidable (DTValid x) := by
  unfold DTValid; infer_instance

/-- Python datetime comparison `<` (lexicographic on the components, which is
what comparing normalized datetimes does). -/
def DT.ltB (a b : DT) : Bool :=
  if a.year ≠ b.year then a.year < b.year
  else if a.month ≠ b.month then a.month < b.month
  else if a.day ≠ b.day then a.day < b.day
  else if a.hour ≠ b.hour then a.hour < b.hour
  else if a.minute ≠ b.minute then a.minute < b.minute
  else if a.second ≠ b.second then a.second < b.second
  else a.usec < b.usec

/-- Python datetime comparison `<=`. -/
def DT.leB (a b : DT) : Bool := !(DT.ltB b a)

/-- Linearization of a `DT` onto an integer time axis (microsecond-resolution
mixed radix, months padded to 31 days).  This is a proof-side measure only:
it is strictly monotone with respect to `DT.ltB` on valid datetimes, which is
all the proofs use. -/
def lin (x : DT) : Int :=
  x.usec + 1000000 * (x.second + 60 * (x.minute + 60 * (x.hour + 24 * (x.day + 31 * (x.month + 12 * x.year)))))

theorem daysInMonth_bounds (y m : Int) : 28 ≤ daysInMonth y m ∧ daysInMonth y m ≤ 31 := by
  unfold daysInMonth
  split_ifs <;> omega

theorem lin_lt_of_ltB {a b : DT} (ha : DTValid a) (hb : DTValid b)
    (h : DT.ltB a b = true) : lin a < lin b := by
  obtain ⟨ha1, ha2, ha3, ha4, ha5⟩ := ha
  obtain ⟨hb1, hb2, hb3, hb4, hb5⟩ := hb
  have hda := daysInMonth_bounds a.year a.month
  have hdb := daysInMonth_bounds b.year b.month
  unfold DT.ltB at h
  unfold lin
  split_ifs at h <;> simp only [decide_eq_true_eq] at h <;> omega

theorem ltB_of_lin_lt {a b : DT} (ha : DTValid a) (hb : DTValid b)
    (h : lin a < lin b) : DT.ltB a b = true := by
  obtain ⟨ha1, ha2, ha3, ha4, ha5⟩ := ha
  obtain ⟨hb1, hb2, hb3, hb4, hb5⟩ := hb
  have hda := daysInMonth_bounds a.year a.month
  have hdb := daysInMonth_bounds b.year b.month
  unfold lin at h
  unfold DT.ltB
  split_ifs <;> simp only [ne_eq, not_not, decide_eq_true_eq] at * <;> omega

theorem lin_lt_iff_ltB {a b : DT} (ha : DTValid a) (hb : DTValid b) :
    DT.ltB a b = true ↔ lin a < lin b :=
  ⟨lin_lt_of_ltB ha hb, ltB_of_lin_lt ha hb⟩

theorem leB_iff_lin_le {a b : DT} (ha : DTValid a) (hb : DTValid b) :
    DT.leB a b = true ↔ lin a ≤ lin b := by
  unfold DT.leB
  rw [Bool.not_eq_true', Bool.eq_false_iff]
  constructor
  · intro h
    by_contra hlt
    exact h (ltB_of_lin_lt hb ha (by omega))
  · intro h hc
    have := lin_lt_of_ltB hb ha hc
    omega

/-- Python `x - timedelta(minutes=1)` on a `DT` (borrow chain; seconds and
microseconds are unchanged). -/
def DT.subMinute (x : DT) : DT :=
  if 1 ≤ x.minute then {x with minute := x.minute - 1}
  else if 1 ≤ x.hour then {x with hour := x.hour - 1, minute := 59}
  else if 2 ≤ x.day then {x with day := x.day - 1, hour := 23, minute := 59}
  else if 2 ≤ x.month then
    {x with month := x.month - 1, day := daysInMonth x.year (x.month - 1), hour := 23, minute := 59}
  else {x with year := x.year - 1, month := 12, day := 31, hour := 23, minute := 59}

/-- Python `x - timedelta(hours=1)` on a `DT`. -/
def DT.subHour (x : DT) : DT :=
  if 1 ≤ x.hour then {x with hour := x.hour - 1}
  else if 2 ≤ x.day then {x with day := x.day - 1, hour := 23}
  else if 2 ≤ x.month then
    {x with month := x.month - 1, day := daysInMonth x.year (x.month - 1), hour := 23}
  else {x with year := x.year - 1, month := 12, day := 31, hour := 23}

/-- Python `x - timedelta(days=1)` on a `DT`. -/
def DT.subDay (x : DT) : DT :=
  if 2 ≤ x.day then {x with day := x.day - 1}
  else if 2 ≤ x.month then {x with month := x.month - 1, day := daysInMonth x.year (x.month - 1)}
  else {x with year := x.year - 1, month := 12, day := 31}

/-- `x - timedelta(days=n)`, by iterating `DT.subDay`. -/
def DT.subDays : Nat → DT → DT
  | 0, x => x
  | n + 1, x => DT.subDays n (DT.subDay x)

/-- Python `x - timedelta(weeks=1)` on a `DT`. -/
def DT.subWeek (x : DT) : DT := DT.subDays 7 x

/-- The monthly tier's step function from `retention.py`:
`lambda x: datetime(x.year if x.month != 1 else x.year - 1, (x.month + 10) % 12 + 1, 1)`. -/
def DT.prevMonthStart (x : DT) : DT :=
  ⟨if x.month ≠ 1 then x.year else x.year - 1, (x.month + 10) % 12 + 1, 1, 0, 0, 0, 0⟩

/-- The yearly tier's step function from `retention.py`:
`lambda x: datetime(x.year - 1, 1, 1)`. -/
def DT.prevYearStart (x : DT) : DT := ⟨x.year - 1, 1, 1, 0, 0, 0, 0⟩

theorem subMinute_valid_lt {x : DT} (hx : DTValid x) :
    DTValid (DT.subMinute x) ∧ lin (DT.subMinute x) < lin x := by
  obtain ⟨y, mo, d, h, mi, s, us⟩ := x
  obtain ⟨h1, h2, h3, h4, h5⟩ := hx
  have hd1 := daysInMonth_bounds y mo
  have hd2 := daysInMonth_bounds y (mo - 1)
  have hd3 := daysInMonth_bounds (y - 1) 12
  have hd4 : daysInMonth (y - 1) 12 = 31 := by unfold daysInMonth; split_ifs <;> omega
  unfold DT.subMinute DTValid lin
  split_ifs <;> simp_all <;> omega

theorem subHour_valid_lt {x : DT} (hx : DTValid x) :
    DTValid (DT.subHour x) ∧ lin (DT.subHour x) < lin x := by
  obtain ⟨y, mo, d, h, mi, s, us⟩ := x
  obtain ⟨h1, h2, h3, h4, h5⟩ := hx
  have hd1 := daysInMonth_bounds y mo
  have hd2 := daysInMonth_bounds y (mo - 1)
  have hd4 : daysInMonth (y - 1) 12 = 31 := by unfold daysInMonth; split_ifs <;> omega
  unfold DT.subHour DTValid lin
  split_ifs <;> simp_all <;> omega

theorem subDay_valid_lt {x : DT} (hx : DTValid x) :
    DTValid (DT.subDay x) ∧ lin (DT.subDay x) < lin x := by
  obtain ⟨y, mo, d, h, mi, s, us⟩ := x
  obtain ⟨h1, h2, h3, h4, h5⟩ := hx
  have hd1 := daysInMonth_bounds y mo
  have hd2 := daysInMonth_bounds y (mo - 1)
  have hd4 : daysInMonth (y - 1) 12 = 31 := by unfold daysInMonth; split_ifs <;> omega
  unfold DT.subDay DTValid lin
  split_ifs <;> simp_all <;> omega

theorem subDays_valid_le {n : Nat} {x : DT} (hx : DTValid x) :
    DTValid (DT.subDays n x) ∧ lin (DT.subDays n x) ≤ lin x := by
  induction n generalizing x with
  | zero => exact ⟨hx, le_refl _⟩
  | succ n ih =>
    obtain ⟨hv, hl⟩ := subDay_valid_lt hx
    obtain ⟨hv2, hl2⟩ := ih hv
    exact ⟨hv2, by simpa [DT.subDays] using le_trans hl2 (le_of_lt hl)⟩

theorem subWeek_valid_lt {x : DT} (hx : DTValid x) :
    DTValid (DT.subWeek x) ∧ lin (DT.subWeek x) < lin x := by
  obtain ⟨hv, hl⟩ := subDay_valid_lt hx
  obtain ⟨hv2, hl2⟩ := subDays_valid_le (n := 6) hv
  refine ⟨?_, ?_⟩
  · simpa [DT.subWeek, DT.subDays] using hv2
  · have : DT.subWeek x = DT.subDays 6 (DT.subDay x) := by simp [DT.subWeek, DT.subDays]
    rw [this]
    omega

theorem prevMonthStart_valid_lt {x : DT} (hx : DTValid x) :
    DTValid (DT.prevMonthStart x) ∧ lin (DT.prevMonthStart x) < lin x := by
  obtain ⟨y, mo, d, h, mi, s, us⟩ := x
  obtain ⟨h1, h2, h3, h4, h5⟩ := hx
  have hd1 := daysInMonth_bounds y mo
  have hd2 := daysInMonth_bounds y ((mo + 10) % 12 + 1)
  have hd3 := daysInMonth_bounds (y - 1) ((mo + 10) % 12 + 1)
  unfold DT.prevMonthStart DTValid lin
  split_ifs <;> simp_all <;> omega

theorem prevYearStart_valid_lt {x : DT} (hx : DTValid x) :
    DTValid (DT.prevYearStart x) ∧ lin (DT.prevYearStart x) < lin x := by
  obtain ⟨y, mo, d, h, mi, s, us⟩ := x
  obtain ⟨h1, h2, h3, h4, h5⟩ := hx
  have hd1 := daysInMonth_bounds y mo
  have hd2 : daysInMonth (y - 1) 1 = 31 := by unfold daysInMonth; split_ifs <;> omega
  unfold DT.prevYearStart DTValid lin
  simp_all
  omega

/-- Rata die (days since 1970-01-01) of a proleptic-Gregorian civil date,
used only to compute the day of week (Python `date.weekday()`). -/
def rataDie (y m d : Int) : Int :=
  let y2 := if m ≤ 2 then y - 1 else y
  let era := (if 0 ≤ y2 then y2 else y2 - 399).fdiv 400
  let yoe := y2 - era * 400
  let mp := (m + 9).emod 12
  let doy := (153 * mp + 2).fdiv 5 + (d - 1)
  let doe := yoe * 365 + yoe.fdiv 4 - yoe.fdiv 100 + doy
  era * 146097 + doe - 719468

/-- Python `date.weekday()`: Monday = 0 ... Sunday = 6. -/
def weekday (x : DT) : Int := (rataDie x.year x.month x.day + 3).emod 7

/-- Python `max(iterable, key=lambda x: x[0], default=None)`: first maximal
element by date, or `none` for an empty list. -/
def maxByDate {α : Type} (l : List (DT × α)) : Option (DT × α) :=
  l.foldl (fun acc p =>
    match acc with
    | none => some p
    | some m => if DT.ltB m.1 p.1 then some p else some m) none

/-- One generational tier's `while` loop from `get_retained_snapshots`
(`retention.py`): scan intervals `[start, stop)` backwards, keeping the most
recent item of each nonempty interval, until the tier's budget is exhausted or
no snapshots remain.  The Python loop has no other exit; for inputs on which
it never reaches that exit (it then dies much later on `datetime`'s year
underflow) the model returns `none`.  `fuel` only bounds the iteration count;
`get_retained_snapshots` passes an amount proved sufficient for every run in
which the Python loop does exit. -/
def tierLoop {α : Type} [DecidableEq α] (prev : DT → DT) (fuel : Nat) (nrKeep : Nat)
    (start stop : DT) (remaining : List (DT × α)) (retained : Finset α) : Option (Finset α) :=
  if 0 < nrKeep ∧ remaining ≠ [] then
    match fuel with
    | 0 => none
    | f + 1 =>
      let parts := remaining.partition (fun p => DT.leB start p.1 && DT.ltB p.1 stop)
      match maxByDate parts.1 with
      | some last => tierLoop prev f (nrKeep - 1) (prev start) start parts.2 (insert last.2 retained)
      | none => tierLoop prev f nrKeep (prev start) start parts.2 retained
  else some retained

/-- `sorted([(date_key(s), s) for s in snapshots], key=lambda entry: entry[0])`:
the date-tagged snapshot list, stably sorted by date ascending. -/
def sortedWithDate {α : Type} (snapshots : List α) (date_key : α → DT) : List (DT × α) :=
  List.insertionSort (fun a b => DT.leB a.1 b.1 = true) (snapshots.map (fun s => (date_key s, s)))

/-- Least `lin` value among the dated items (floored at `lin now`); only used
to size the fuel of the tier loops. -/
def minLinOf {α : Type} (now : DT) (l : List (DT × α)) : Int :=
  l.foldr (fun p acc => min (lin p.1) acc) (lin now)

/-- `get_retained_snapshots` from `retention.py`.  Differences from the
Python source, all forced by the embedding: `datetime.now()` is the explicit
parameter `now`; the six-entry `timedeltas` list and the `for` loop over it
are unrolled into six `tierLoop` calls chained with `Option.bind`; the result
is the retained `Finset` itself rather than `list(retained)`; `none` stands
for the (reachable) runs in which a tier's `while` loop never reaches its
exit condition.  The fuel term is a generous upper bound on the number of
iterations of any exiting run. -/
def get_retained_snapshots {α : Type} [DecidableEq α] (now : DT) (snapshots : List α)
    (date_key : α → DT) (keep_last keep_minutely keep_hourly keep_daily keep_weekly
    keep_monthly keep_yearly : Nat) : Option (Finset α) :=
  let today_start : DT := ⟨now.year, now.month, now.day, 0, 0, 0, 0⟩
  let with_date := sortedWithDate snapshots date_key
  let retained0 : Finset α :=
    if 0 < keep_last then ((with_date.drop (with_date.length - keep_last)).map Prod.snd).toFinset
    else ∅
  let fuel : Nat := (lin now + 2 - minLinOf now with_date).toNat + 100000000000000
  (tierLoop DT.subMinute fuel keep_minutely ⟨now.year, now.month, now.day, now.hour, now.minute, 0, 0⟩ now with_date retained0).bind
    (fun r1 => (tierLoop DT.subHour fuel keep_hourly ⟨now.year, now.month, now.day, now.hour, 0, 0, 0⟩ now with_date r1).bind
    (fun r2 => (tierLoop DT.subDay fuel keep_daily today_start now with_date r2).bind
    (fun r3 => (tierLoop DT.subWeek fuel keep_weekly (DT.subDays (weekday now).toNat today_start) now with_date r3).bind
    (fun r4 => (tierLoop DT.prevMonthStart fuel keep_monthly ⟨now.year, now.month, 1, 0, 0, 0, 0⟩ now with_date r4).bind
    (fun r5 => tierLoop DT.prevYearStart fuel keep_yearly ⟨now.year, 1, 1, 0, 0, 0, 0⟩ now with_date r5)))))

theorem tierLoop_subset {α : Type} [DecidableEq α] (prev : DT → DT) :
    ∀ (fuel nrKeep : Nat) (start stop : DT) (rem : List (DT × α)) (ret S : Finset α),
    tierLoop prev fuel nrKeep start stop rem ret = some S → ret ⊆ S := by
  intro fuel
  induction fuel with
  | zero =>
    intro nrKeep start stop rem ret S h
    rw [tierLoop] at h
    split at h
    · exact absurd h (by simp)
    · simpa using (Option.some.inj h) ▸ Finset.Subset.refl ret
  | succ f ih =>
    intro nrKeep start stop rem ret S h
    rw [tierLoop] at h
    split at h
    · dsimp only at h
      split at h
      · exact fun a ha => ih _ _ _ _ _ _ h (Finset.mem_insert_of_mem ha)
      · exact ih _ _ _ _ _ _ h
    · intro a ha
      rwa [← Option.some.inj h]

/-- C2: whenever `get_retained_snapshots` returns a set and `keep_last = k`
with `0 < k ≤ n`, the returned set includes the `k` chronologically-latest
items (the last `k` entries of the date-sorted list), regardless of all
other `keep` tier settings. -/
theorem keep_last_tail_retained {α : Type} [DecidableEq α] (now : DT) (items : List α)
    (dk : α → DT) (k km kh kd kw kmo ky : Nat) (S : Finset α)
    (h1 : 0 < k) (_h2 : k ≤ items.length)
    (hS : get_retained_snapshots now items dk k km kh kd kw kmo ky = some S) :
    ∀ p ∈ (sortedWithDate items dk).drop (items.length - k), p.2 ∈ S := by
  intro p hp
  have hlen : (sortedWithDate items dk).length = items.length := by
    simp [sortedWithDate]
  simp only [get_retained_snapshots] at hS
  obtain ⟨r1, e1, hS⟩ := Option.bind_eq_some.mp hS
  obtain ⟨r2, e2, hS⟩ := Option.bind_eq_some.mp hS
  obtain ⟨r3, e3, hS⟩ := Option.bind_eq_some.mp hS
  obtain ⟨r4, e4, hS⟩ := Option.bind_eq_some.mp hS
  obtain ⟨r5, e5, e6⟩ := Option.bind_eq_some.mp hS
  have s1 := tierLoop_subset _ _ _ _ _ _ _ _ e1
  have s2 := tierLoop_subset _ _ _ _ _ _ _ _ e2
  have s3 := tierLoop_subset _ _ _ _ _ _ _ _ e3
  have s4 := tierLoop_subset _ _ _ _ _ _ _ _ e4
  have s5 := tierLoop_subset _ _ _ _ _ _ _ _ e5
  have hmem : p.2 ∈ (if 0 < k then
      (((sortedWithDate items dk).drop ((sortedWithDate items dk).length - k)).map Prod.snd).toFinset
      else (∅ : Finset α)) := by
    rw [if_pos h1, hlen]
    exact List.mem_toFinset.mpr (List.mem_map_of_mem Prod.snd hp)
  exact tierLoop_subset _ _ _ _ _ _ _ _ e6 (s5 (s4 (s3 (s2 (s1 hmem)))))

/-- C3: with every `keep` parameter 0 the selection returns the empty set
for any input, and for an empty input list it returns the empty set under
any policy. -/
theorem retention_zero_policy_empty {α : Type} [DecidableEq α] (now : DT) (items : List α)
    (dk : α → DT) (k km kh kd kw kmo ky : Nat) :
    ((k = 0 ∧ km = 0 ∧ kh = 0 ∧ kd = 0 ∧ kw = 0 ∧ kmo = 0 ∧ ky = 0) →
      get_retained_snapshots now items dk k km kh kd kw kmo ky = some ∅) ∧
    (items = [] → get_retained_snapshots now items dk k km kh kd kw kmo ky = some ∅) := by
  constructor
  · rintro ⟨rfl, rfl, rfl, rfl, rfl, rfl, rfl⟩
    simp [get_retained_snapshots, tierLoop]
  · rintro rfl
    simp [get_retained_snapshots, tierLoop, sortedWithDate]

/-- If every remaining item is dated at or after the interval end, a tier
loop with a positive budget never reaches its exit condition: the Python
`while` loop scans backwards forever (until the `datetime` year underflow
kills the process), so the model yields `none` for every fuel. -/
theorem tierLoop_none_of_future {α : Type} [DecidableEq α] (prev : DT → DT)
    (hprev : ∀ x, DTValid x → DTValid (prev x) ∧ lin (prev x) < lin x) :
    ∀ (fuel nrKeep : Nat) (start stop : DT) (rem : List (DT × α)) (ret : Finset α),
    DTValid start → DTValid stop → lin start ≤ lin stop →
    0 < nrKeep → rem ≠ [] → (∀ p ∈ rem, DTValid p.1 ∧ lin stop ≤ lin p.1) →
    tierLoop prev fuel nrKeep start stop rem ret = none := by
  intro fuel
  induction fuel with
  | zero =>
    intro nrKeep start stop rem ret _ _ _ hk hrem _
    rw [tierLoop, if_pos ⟨hk, hrem⟩]
  | succ f ih =>
    intro nrKeep start stop rem ret hs hst hle hk hrem hp
    rw [tierLoop, if_pos ⟨hk, hrem⟩]
    have hpred : ∀ p ∈ rem, (DT.leB start p.1 && DT.ltB p.1 stop) = false := by
      intro p hpm
      obtain ⟨hv, hge⟩ := hp p hpm
      have : DT.ltB p.1 stop = false := by
        rw [Bool.eq_false_iff]
        intro hc
        have := lin_lt_of_ltB hv hst hc
        omega
      simp [this]
    have hparts : rem.partition (fun p => DT.leB start p.1 && DT.ltB p.1 stop) = ([], rem) := by
      rw [List.partition_eq_filter_filter]
      simp only [Prod.mk.injEq]
      constructor
      · exact List.filter_eq_nil_iff.mpr (by intro p hpm; simp [hpred p hpm])
      · exact List.filter_eq_self.mpr (by intro p hpm; simp [hpred p hpm])
    dsimp only
    rw [hparts]
    have : maxByDate ([] : List (DT × α)) = none := rfl
    rw [this]
    exact ih nrKeep (prev start) start rem ret (hprev start hs).1 hs
      (le_of_lt (hprev start hs).2) hk hrem
      (fun p hpm => ⟨(hp p hpm).1, le_trans hle (hp p hpm).2⟩)

theorem tierLoop_total {α : Type} [DecidableEq α] (prev : DT → DT)
    (hprev : ∀ x, DTValid x → DTValid (prev x) ∧ lin (prev x) < lin x) :
    ∀ (fuel nrKeep : Nat) (start stop : DT) (rem : List (DT × α)) (ret : Finset α),
    DTValid start → DTValid stop →
    (∀ p ∈ rem, DTValid p.1 ∧ DT.ltB p.1 stop = true ∧ lin start + 1 ≤ lin p.1 + fuel) →
    (rem ≠ [] → 1 ≤ fuel) →
    ∃ S, tierLoop prev fuel nrKeep start stop rem ret = some S := by
  intro fuel
  induction fuel with
  | zero =>
    intro nrKeep start stop rem ret _ _ _ hfuel
    rw [tierLoop]
    split
    · next hc => exact absurd (hfuel hc.2) (by omega)
    · exact ⟨ret, rfl⟩
  | succ f ih =>
    intro nrKeep start stop rem ret hs hst hinv _
    rw [tierLoop]
    split
    · next hc =>
      dsimp only
      have hmem2 : ∀ p ∈ (rem.partition (fun p => DT.leB start p.1 && DT.ltB p.1 stop)).2,
          p ∈ rem ∧ (DT.leB start p.1 && DT.ltB p.1 stop) = false := by
        intro p hpm
        rw [List.partition_eq_filter_filter] at hpm
        simp only [List.mem_filter, Function.comp, Bool.not_eq_true'] at hpm
        exact ⟨hpm.1, by simpa using hpm.2⟩
      have hinv2 : ∀ p ∈ (rem.partition (fun p => DT.leB start p.1 && DT.ltB p.1 stop)).2,
          DTValid p.1 ∧ DT.ltB p.1 start = true ∧ lin (prev start) + 1 ≤ lin p.1 + f := by
        intro p hpm
        obtain ⟨hpm1, hpm2⟩ := hmem2 p hpm
        obtain ⟨hv, hlt, hf⟩ := hinv p hpm1
        have hnle : DT.leB start p.1 = false := by
          rcases Bool.eq_false_or_eq_true (DT.leB start p.1) with h | h
          · simp [h, hlt] at hpm2
          · exact h
        have hplt : lin p.1 < lin start := by
          have := (leB_iff_lin_le hs hv).symm
          rcases (lt_or_le (lin p.1) (lin start)) with h | h
          · exact h
          · exact absurd ((leB_iff_lin_le hs hv).mpr h) (by simp [hnle])
        refine ⟨hv, ltB_of_lin_lt hv hs hplt, ?_⟩
        have := (hprev start hs).2
        omega
      have hfpos : (rem.partition (fun p => DT.leB start p.1 && DT.ltB p.1 stop)).2 ≠ [] → 1 ≤ f := by
        intro hne
        obtain ⟨p, hpm⟩ := List.exists_mem_of_ne_nil _ hne
        obtain ⟨hpm1, _⟩ := hmem2 p hpm
        obtain ⟨hv, hlt2, hf⟩ := hinv p hpm1
        obtain ⟨_, hlt, _⟩ := hinv2 p hpm
        have := lin_lt_of_ltB hv hs hlt
        omega
      split
      · exact ih (nrKeep - 1) (prev start) start _ _ (hprev start hs).1 hs hinv2 hfpos
      · exact ih nrKeep (prev start) start _ _ (hprev start hs).1 hs hinv2 hfpos
    · exact ⟨ret, rfl⟩

theorem minLinOf_le {α : Type} (now : DT) (l : List (DT × α)) :
    ∀ p ∈ l, minLinOf now l ≤ lin p.1 := by
  induction l with
  | nil => simp
  | cons q t ih =>
    intro p hp
    have hmin : minLinOf now (q :: t) = min (lin q.1) (minLinOf now t) := rfl
    rcases List.mem_cons.mp hp with rfl | hp
    · rw [hmin]; exact min_le_left _ _
    · rw [hmin]; exact le_trans (min_le_right _ _) (ih p hp)

theorem minuteFloor_valid_le {x : DT} (hx : DTValid x) :
    DTValid ⟨x.year, x.month, x.day, x.hour, x.minute, 0, 0⟩ ∧
    lin ⟨x.year, x.month, x.day, x.hour, x.minute, 0, 0⟩ ≤ lin x := by
  unfold DTValid lin at *
  dsimp only at *
  omega

theorem hourFloor_valid_le {x : DT} (hx : DTValid x) :
    DTValid ⟨x.year, x.month, x.day, x.hour, 0, 0, 0⟩ ∧
    lin ⟨x.year, x.month, x.day, x.hour, 0, 0, 0⟩ ≤ lin x := by
  unfold DTValid lin at *
  dsimp only at *
  omega

theorem dayFloor_valid_le {x : DT} (hx : DTValid x) :
    DTValid ⟨x.year, x.month, x.day, 0, 0, 0, 0⟩ ∧
    lin ⟨x.year, x.month, x.day, 0, 0, 0, 0⟩ ≤ lin x := by
  unfold DTValid lin at *
  dsimp only at *
  omega

theorem monthFloor_valid_le {x : DT} (hx : DTValid x) :
    DTValid ⟨x.year, x.month, 1, 0, 0, 0, 0⟩ ∧
    lin ⟨x.year, x.month, 1, 0, 0, 0, 0⟩ ≤ lin x := by
  have hd := daysInMonth_bounds x.year x.month
  unfold DTValid lin at *
  dsimp only at *
  omega

theorem yearFloor_valid_le {x : DT} (hx : DTValid x) :
    DTValid ⟨x.year, 1, 1, 0, 0, 0, 0⟩ ∧
    lin ⟨x.year, 1, 1, 0, 0, 0, 0⟩ ≤ lin x := by
  have hd1 := daysInMonth_bounds x.year x.month
  have hd2 := daysInMonth_bounds x.year 1
  unfold DTValid lin at *
  dsimp only at *
  omega

theorem weekFloor_valid_le {x : DT} (hx : DTValid x) (n : Nat) :
    DTValid (DT.subDays n ⟨x.year, x.month, x.day, 0, 0, 0, 0⟩) ∧
    lin (DT.subDays n ⟨x.year, x.month, x.day, 0, 0, 0, 0⟩) ≤ lin x := by
  obtain ⟨hv, hl⟩ := dayFloor_valid_le hx
  obtain ⟨hv2, hl2⟩ := subDays_valid_le (n := n) hv
  exact ⟨hv2, le_trans hl2 hl⟩

/-- C4 (amended): for every list of items with valid dates all strictly
before `now` (`now` valid), every tier's interval-scanning loop reaches its
exit condition — the tier budget is exhausted or no snapshots remain — and
the whole selection returns a result.  (As stated, the claim is false: an
item dated at or after `now` keeps `snapshots_remaining` nonempty forever,
see `retention_future_item_no_result`.) -/
theorem retention_terminates_on_past_items {α : Type} [DecidableEq α] (now : DT)
    (items : List α) (dk : α → DT) (k km kh kd kw kmo ky : Nat)
    (hnow : DTValid now)
    (hitems : ∀ s ∈ items, DTValid (dk s) ∧ DT.ltB (dk s) now = true) :
    ∃ S, get_retained_snapshots now items dk k km kh kd kw kmo ky = some S := by
  have hwd : ∀ p ∈ sortedWithDate items dk, DTValid p.1 ∧ DT.ltB p.1 now = true := by
    intro p hp
    have hperm := List.perm_insertionSort
      (fun a b : DT × α => DT.leB a.1 b.1 = true) (items.map (fun s => (dk s, s)))
    have : p ∈ items.map (fun s => (dk s, s)) := hperm.mem_iff.mp hp
    obtain ⟨s, hs, rfl⟩ := List.mem_map.mp this
    exact hitems s hs
  set wd := sortedWithDate items dk with hwddef
  set F : Nat := (lin now + 2 - minLinOf now wd).toNat + 100000000000000 with hFdef
  have hFmin : (lin now + 2 - minLinOf now wd : Int) ≤ (F : Int) := by
    rw [hFdef]
    push_cast
    omega
  have hcommon : ∀ p ∈ wd, DTValid p.1 ∧ DT.ltB p.1 now = true ∧ lin now + 2 ≤ lin p.1 + F := by
    intro p hp
    obtain ⟨hv, hlt⟩ := hwd p hp
    have := minLinOf_le now wd p hp
    exact ⟨hv, hlt, by omega⟩
  have hfuelpos : wd ≠ [] → 1 ≤ F := by
    intro hne
    obtain ⟨p, hp⟩ := List.exists_mem_of_ne_nil _ hne
    obtain ⟨hv, hlt, _⟩ := hcommon p hp
    have := lin_lt_of_ltB hv hnow hlt
    have := minLinOf_le now wd p hp
    omega
  have inv : ∀ (first : DT), lin first ≤ lin now →
      ∀ p ∈ wd, DTValid p.1 ∧ DT.ltB p.1 now = true ∧ lin first + 1 ≤ lin p.1 + F := by
    intro first hle p hp
    obtain ⟨hv, hlt, hf⟩ := hcommon p hp
    exact ⟨hv, hlt, by omega⟩
  obtain ⟨hv1, hl1⟩ := minuteFloor_valid_le hnow
  obtain ⟨hv2, hl2⟩ := hourFloor_valid_le hnow
  obtain ⟨hv3, hl3⟩ := dayFloor_valid_le hnow
  obtain ⟨hv4, hl4⟩ := weekFloor_valid_le hnow (weekday now).toNat
  obtain ⟨hv5, hl5⟩ := monthFloor_valid_le hnow
  obtain ⟨hv6, hl6⟩ := yearFloor_valid_le hnow
  obtain ⟨S1, e1⟩ := tierLoop_total DT.subMinute (fun x hx => subMinute_valid_lt hx) F km
    ⟨now.year, now.month, now.day, now.hour, now.minute, 0, 0⟩ now wd
    (if 0 < k then ((wd.drop (wd.length - k)).map Prod.snd).toFinset else (∅ : Finset α))
    hv1 hnow (inv _ hl1) hfuelpos
  obtain ⟨S2, e2⟩ := tierLoop_total DT.subHour (fun x hx => subHour_valid_lt hx) F kh
    ⟨now.year, now.month, now.day, now.hour, 0, 0, 0⟩ now wd S1 hv2 hnow (inv _ hl2) hfuelpos
  obtain ⟨S3, e3⟩ := tierLoop_total DT.subDay (fun x hx => subDay_valid_lt hx) F kd
    ⟨now.year, now.month, now.day, 0, 0, 0, 0⟩ now wd S2 hv3 hnow (inv _ hl3) hfuelpos
  obtain ⟨S4, e4⟩ := tierLoop_total DT.subWeek (fun x hx => subWeek_valid_lt hx) F kw
    (DT.subDays (weekday now).toNat ⟨now.year, now.month, now.day, 0, 0, 0, 0⟩) now wd S3
    hv4 hnow (inv _ hl4) hfuelpos
  obtain ⟨S5, e5⟩ := tierLoop_total DT.prevMonthStart (fun x hx => prevMonthStart_valid_lt hx) F kmo
    ⟨now.year, now.month, 1, 0, 0, 0, 0⟩ now wd S4 hv5 hnow (inv _ hl5) hfuelpos
  obtain ⟨S6, e6⟩ := tierLoop_total DT.prevYearStart (fun x hx => prevYearStart_valid_lt hx) F ky
    ⟨now.year, 1, 1, 0, 0, 0, 0⟩ now wd S5 hv6 hnow (inv _ hl6) hfuelpos
  refine ⟨S6, ?_⟩
  simp only [get_retained_snapshots, ← hwddef, ← hFdef]
  rw [e1, Option.some_bind, e2, Option.some_bind, e3, Option.some_bind, e4, Option.some_bind,
    e5, Option.some_bind, e6]

theorem tierLoop_zero_keep {α : Type} [DecidableEq α] (prev : DT → DT) (fuel : Nat)
    (start stop : DT) (rem : List (DT × α)) (ret : Finset α) :
    tierLoop prev fuel 0 start stop rem ret = some ret := by
  rw [tierLoop.eq_def]
  simp

def dailyDateKey (n : Nat) : DT := ⟨2024, 1, n, 0, 0, 0, 0⟩

/-- C1: over seven items dated 2024-01-01 .. 2024-01-07 (one per day, ids
1..7), with `keep_daily = 3` and every other `keep` count 0, evaluated at
now = 2024-01-08T00:00, the selection is exactly the items dated 01-05,
01-06 and 01-07. -/
theorem retention_daily_example :
    get_retained_snapshots ⟨2024, 1, 8, 0, 0, 0, 0⟩ [1, 2, 3, 4, 5, 6, 7] dailyDateKey
      0 0 0 3 0 0 0 = some ({5, 6, 7} : Finset Nat) := by decide

def futureDateKey : Nat → DT := fun _ => ⟨2024, 1, 8, 0, 1, 0, 0⟩

/-- C4 counterexample: one item dated one minute after `now` with
`keep_daily = 1`: the daily tier's loop never stops — in particular it does
not stop when no items remain below the searched interval — and the
selection produces no result, so it is not a total function of its inputs. -/
theorem retention_future_item_no_result :
    get_retained_snapshots ⟨2024, 1, 8, 0, 0, 0, 0⟩ [1] futureDateKey 0 0 0 1 0 0 0 = none := by
  have hwd : sortedWithDate [1] futureDateKey = [(⟨2024, 1, 8, 0, 1, 0, 0⟩, 1)] := by decide
  unfold get_retained_snapshots
  dsimp only
  rw [hwd, tierLoop_zero_keep, Option.some_bind, tierLoop_zero_keep, Option.some_bind,
    tierLoop_none_of_future DT.subDay (fun x hx => subDay_valid_lt hx) _ 1 _ _ _ _
      (by decide) (by decide) (by decide) (by decide) (by decide) (by decide)]
  rfl

def clockDateKey (n : Nat) : DT :=
  if n = 1 then ⟨2024, 1, 8, 23, 0, 0, 0⟩ else ⟨2024, 1, 9, 1, 0, 0, 0⟩

/-- C5 counterexample: two invocations with equal item lists, equal date
accessors and equal `keep` parameters but different values of the internal
`datetime.now()` clock read return different result sets, so the selection
is not a function of the listed inputs alone. -/
theorem retention_depends_on_clock :
    get_retained_snapshots ⟨2024, 1, 9, 0, 30, 0, 0⟩ [1, 2] clockDateKey 0 0 0 1 0 0 0 ≠
      get_retained_snapshots ⟨2024, 1, 9, 2, 0, 0, 0⟩ [1, 2] clockDateKey 0 0 0 1 0 0 0 := by
  decide

/-- C5 (amended): the selection is a pure function of the clock instant
`now` together with the item list, the date accessor and the `keep`
parameters: invocations with equal values of all of these (including `now`)
return equal results. -/
theorem retention_deterministic_given_now {α : Type} [DecidableEq α]
    (now1 now2 : DT) (items1 items2 : List α) (dkey1 dkey2 : α → DT)
    (k km kh kd kw kmo ky : Nat)
    (hn : now1 = now2) (hi : items1 = items2) (hd : dkey1 = dkey2) :
    get_retained_snapshots now1 items1 dkey1 k km kh kd kw kmo ky =
      get_retained_snapshots now2 items2 dkey2 k km kh kd kw kmo ky := by
  subst hn hi hd
  rfl

theorem retention_deterministic_given_now_witness :
    get_retained_snapshots ⟨2024, 1, 8, 0, 0, 0, 0⟩ [1, 2] dailyDateKey 1 0 0 0 0 0 0 =
      get_retained_snapshots ⟨2024, 1, 8, 0, 0, 0, 0⟩ [1, 2] dailyDateKey 1 0 0 0 0 0 0 :=
  retention_deterministic_given_now _ _ _ _ _ _ 1 0 0 0 0 0 0 rfl rfl rfl

theorem keep_last_tail_retained_witness :
    ((⟨2024, 1, 6, 0, 0, 0, 0⟩ : DT), 6).2 ∈ ({6, 7} : Finset Nat) :=
  keep_last_tail_retained ⟨2024, 1, 8, 0, 0, 0, 0⟩ [1, 2, 3, 4, 5, 6, 7] dailyDateKey
    2 0 0 0 0 0 0 {6, 7} (by decide) (by decide) (by decide)
    (⟨2024, 1, 6, 0, 0, 0, 0⟩, 6) (by decide)

theorem retention_zero_policy_empty_witness :
    get_retained_snapshots ⟨2024, 1, 8, 0, 0, 0, 0⟩ [1, 2] dailyDateKey 0 0 0 0 0 0 0 =
      some (∅ : Finset Nat) :=
  (retention_zero_policy_empty ⟨2024, 1, 8, 0, 0, 0, 0⟩ [1, 2] dailyDateKey
    0 0 0 0 0 0 0).1 ⟨rfl, rfl, rfl, rfl, rfl, rfl, rfl⟩

theorem retention_terminates_on_past_items_witness :
    (get_retained_snapshots ⟨2024, 1, 8, 0, 0, 0, 0⟩ [1, 2, 3] dailyDateKey
      1 1 1 1 1 1 1).isSome = true := by
  obtain ⟨S, hS⟩ := retention_terminates_on_past_items ⟨2024, 1, 8, 0, 0, 0, 0⟩ [1, 2, 3]
    dailyDateKey 1 1 1 1 1 1 1 (by decide) (by decide)
  rw [hS]
  rfl

/-! ## Result aggregation (`results.py`) -/

/-- `ResultStatus` from `results.py`. -/
inductive ResultStatus where
  | OK
  | WARN
  | ERR
deriving DecidableEq, Repr

/-- `CommandResult` from `results.py`: a tree node carrying an optional
message, a list of children, an optional explicitly-set status
(`self._status`) and an optional task description. -/
inductive CommandResult where
  | mk (message : Option String) (children : List CommandResult)
      (explicitStatus : Option ResultStatus) (taskDescription : Option String)

mutual

/-- The `status` property of `CommandResult`: the explicitly set status if
any, otherwise derived from the children (OK iff all children OK, else ERR if
some child is ERR, else WARN). -/
def CommandResult.status : CommandResult → ResultStatus
  | .mk _ cs st _ =>
    match st with
    | some s => s
    | none =>
      if CommandResult.allOK cs then .OK
      else if CommandResult.anyERR cs then .ERR
      else .WARN

/-- `all(it.status == ResultStatus.OK for it in children)`. -/
def CommandResult.allOK : List CommandResult → Bool
  | [] => true
  | c :: cs => (CommandResult.status c == .OK) && CommandResult.allOK cs

/-- `any(it.status == ResultStatus.ERR for it in children)`. -/
def CommandResult.anyERR : List CommandResult → Bool
  | [] => false
  | c :: cs => (CommandResult.status c == .ERR) || CommandResult.anyERR cs

end

def CommandResult.ok (message : Option String) (children : List CommandResult) : CommandResult :=
  .mk message children (some .OK) none

def CommandResult.warn (message : Option String) (children : List CommandResult) : CommandResult :=
  .mk message children (some .WARN) none

def CommandResult.err (message : Option String) (children : List CommandResult) : CommandResult :=
  .mk message children (some .ERR) none

def CommandResult.from_children (children : List CommandResult) (message : Option String)
    (taskDescription : Option String) : CommandResult :=
  .mk message children none taskDescription

example : (CommandResult.warn none []).status = .WARN := rfl
example : (CommandResult.from_children [CommandResult.warn none []] none none).status = .WARN := rfl
example : (CommandResult.from_children [] none none).status = .OK := rfl
example : (CommandResult.from_children [CommandResult.ok none [], CommandResult.err none []] none none).status = .ERR := rfl

theorem allOK_iff (cs : List CommandResult) :
    CommandResult.allOK cs = true ↔ ∀ c ∈ cs, c.status = .OK := by
  induction cs with
  | nil => simp [CommandResult.allOK]
  | cons c t ih => simp [CommandResult.allOK, ih]

theorem anyERR_iff (cs : List CommandResult) :
    CommandResult.anyERR cs = true ↔ ∃ c ∈ cs, c.status = .ERR := by
  induction cs with
  | nil => simp [CommandResult.anyERR]
  | cons c t ih => simp [CommandResult.anyERR, ih]

theorem status_unfold_derived (msg : Option String) (cs : List CommandResult)
    (td : Option String) :
    (CommandResult.mk msg cs none td).status =
      (if CommandResult.allOK cs then .OK else if CommandResult.anyERR cs then .ERR else .WARN) :=
  rfl

/-- C9: a `CommandResult` whose status was not explicitly set derives it
bottom-up from its children: OK exactly when all children are OK (hence a
node with no children is OK), ERR whenever some child is ERR, and WARN
otherwise. -/
theorem derived_status_characterization (msg : Option String) (cs : List CommandResult)
    (td : Option String) :
    ((CommandResult.mk msg cs none td).status = .OK ↔ ∀ c ∈ cs, c.status = .OK) ∧
    ((∃ c ∈ cs, c.status = .ERR) → (CommandResult.mk msg cs none td).status = .ERR) ∧
    ((¬ ∀ c ∈ cs, c.status = .OK) → (¬ ∃ c ∈ cs, c.status = .ERR) →
      (CommandResult.mk msg cs none td).status = .WARN) := by
  rw [status_unfold_derived]
  refine ⟨?_, ?_, ?_⟩
  · constructor
    · intro h
      by_cases hall : CommandResult.allOK cs
      · exact (allOK_iff cs).mp hall
      · rw [if_neg hall] at h
        split at h <;> simp_all
    · intro h
      rw [if_pos ((allOK_iff cs).mpr h)]
  · intro h
    have hall : CommandResult.allOK cs = false := by
      obtain ⟨c, hc, he⟩ := h
      rw [Bool.eq_false_iff]
      intro hc2
      have := (allOK_iff cs).mp hc2 c hc
      simp [this] at he
    rw [hall]
    simp [(anyERR_iff cs).mpr h]
  · intro h1 h2
    have hall : CommandResult.allOK cs = false := by
      rw [Bool.eq_false_iff]
      exact fun hc => h1 ((allOK_iff cs).mp hc)
    have hany : CommandResult.anyERR cs = false := by
      rw [Bool.eq_false_iff]
      exact fun hc => h2 ((anyERR_iff cs).mp hc)
    rw [hall, hany]
    rfl

theorem derived_status_characterization_witness :
    (CommandResult.mk none [CommandResult.err none []] none none).status = .ERR :=
  (derived_status_characterization none [CommandResult.err none []] none).2.1
    ⟨CommandResult.err none [], by simp, rfl⟩

/-! ## Backup orchestration (`commands/snapborg.py`) -/

/-- Python `x + timedelta(days=1)` on a `DT` (carry chain). -/
def DT.succDay (x : DT) : DT :=
  if x.day < daysInMonth x.year x.month then {x with day := x.day + 1}
  else if x.month < 12 then {x with month := x.month + 1, day := 1}
  else {x with year := x.year + 1, month := 1, day := 1}

/-- `x + timedelta(days=n)`, by iterating `DT.succDay`. -/
def DT.addDays : Nat → DT → DT
  | 0, x => x
  | n + 1, x => DT.addDays n (DT.succDay x)

/-- Python `x + timedelta(seconds=n)` on a `DT`: split the added seconds into
whole days and an in-day remainder. -/
def DT.addSeconds (n : Nat) (x : DT) : DT :=
  let total : Int := (x.hour * 60 + x.minute) * 60 + x.second + n
  DT.addDays (total.fdiv 86400).toNat
    {x with hour := (total.emod 86400).fdiv 3600,
            minute := ((total.emod 86400).fdiv 60).emod 60,
            second := (total.emod 86400).emod 60}

/-- Modelled from the spec: `config.py` is absent from the source tree; it
defines `RepoConfig.get_fail_after()`, the tri-state `fail_after` directive —
`False` (optional, best-effort repo), `True` (mandatory repo), or a duration
(optional repo with a staleness deadline). -/
inductive FailAfter where
  | optional
  | mandatory
  | limit (seconds : Nat)
deriving DecidableEq

/-- The policy-evaluation tail of `backup_to_repo` (`commands/snapborg.py`):
given the per-candidate transfer results, the repository's `fail_after`
directive, the (re-fetched) snapshot list — each entry is the snapshot's date
paired with whether it is backed up to this repository — and the current
time, produce the per-repository `CommandResult`.  `none` models the uncaught
`ValueError` Python's `max` raises when `backed_up` is empty while the
re-fetched snapshot list is also empty.  Result messages are modelled as
`none`; the claims do not concern message strings. -/
def evaluate_repo_result (snapshot_results : List CommandResult) (fail_after : FailAfter)
    (snapshots2 : List (DT × Bool)) (now : DT) : Option CommandResult :=
  if snapshot_results.any (fun it => it.status == .ERR) then
    match fail_after with
    | .optional => some (CommandResult.warn none snapshot_results)
    | .mandatory => some (CommandResult.err none snapshot_results)
    | .limit seconds =>
      let backed_up := snapshots2.filter (fun s => s.2)
      if 0 < snapshots2.length ∧ backed_up.length = 0 then
        some (CommandResult.err none snapshot_results)
      else
        match maxByDate backed_up with
        | none => none
        | some newest =>
          if DT.ltB (DT.addSeconds seconds newest.1) now then
            some (CommandResult.err none snapshot_results)
          else
            some (CommandResult.warn none snapshot_results)
  else
    some (CommandResult.from_children snapshot_results none none)

/-- C7: whenever some candidate result is ERR, `backup_to_repo` yields WARN
for a `fail_after = False` (optional) repository and ERR for a
`fail_after = True` (mandatory) repository, regardless of the other inputs. -/
theorem fail_after_policy_warn_err (results : List CommandResult)
    (snapshots2 : List (DT × Bool)) (now : DT)
    (h : results.any (fun it => it.status == .ERR) = true) :
    (∃ r, evaluate_repo_result results .optional snapshots2 now = some r ∧ r.status = .WARN) ∧
    (∃ r, evaluate_repo_result results .mandatory snapshots2 now = some r ∧ r.status = .ERR) := by
  constructor
  · unfold evaluate_repo_result
    rw [if_pos h]
    exact ⟨_, rfl, rfl⟩
  · unfold evaluate_repo_result
    rw [if_pos h]
    exact ⟨_, rfl, rfl⟩

theorem fail_after_policy_warn_err_witness :
    (∃ r, evaluate_repo_result [CommandResult.err none []] .optional [] ⟨2024, 1, 1, 0, 0, 0, 0⟩ =
      some r ∧ r.status = .WARN) ∧
    (∃ r, evaluate_repo_result [CommandResult.err none []] .mandatory [] ⟨2024, 1, 1, 0, 0, 0, 0⟩ =
      some r ∧ r.status = .ERR) :=
  fail_after_policy_warn_err [CommandResult.err none []] [] ⟨2024, 1, 1, 0, 0, 0, 0⟩ rfl

/-- C8 counterexample: a candidate batch with a WARN result and no ERR result
yields a per-repository status of WARN, not OK. -/
theorem no_err_but_warn_child :
    (evaluate_repo_result [CommandResult.warn none []] .optional [] ⟨2024, 1, 1, 0, 0, 0, 0⟩).map
        CommandResult.status = some .WARN ∧
      some ResultStatus.WARN ≠ some ResultStatus.OK :=
  ⟨rfl, by simp⟩

/-- C8 (amended): with no ERR among the candidate results, the
per-repository result exists, is never ERR, and is OK exactly when every
candidate result is OK (it is WARN otherwise). -/
theorem repo_result_ok_iff_all_ok (results : List CommandResult) (fa : FailAfter)
    (snapshots2 : List (DT × Bool)) (now : DT)
    (h : ∀ r ∈ results, r.status ≠ .ERR) :
    ∃ node, evaluate_repo_result results fa snapshots2 now = some node ∧
      node.status ≠ .ERR ∧ (node.status = .OK ↔ ∀ r ∈ results, r.status = .OK) := by
  have hany : ¬ (results.any (fun it => it.status == .ERR) = true) := by
    simp only [List.any_eq_true, beq_iff_eq]
    rintro ⟨r, hr, he⟩
    exact h r hr he
  unfold evaluate_repo_result
  rw [if_neg hany]
  refine ⟨_, rfl, ?_, ?_⟩
  · rw [CommandResult.from_children, status_unfold_derived]
    split_ifs with h1 h2
    · simp
    · exact absurd ((anyERR_iff results).mp h2) (by simpa using h)
    · simp
  · rw [CommandResult.from_children]
    exact (derived_status_characterization none results none).1

theorem repo_result_ok_iff_all_ok_witness :
    ∃ node, evaluate_repo_result [CommandResult.ok none []] .mandatory [] ⟨2024, 1, 1, 0, 0, 0, 0⟩ =
      some node ∧ node.status ≠ .ERR ∧
      (node.status = .OK ↔ ∀ r ∈ [CommandResult.ok none []], r.status = .OK) :=
  repo_result_ok_iff_all_ok [CommandResult.ok none []] .mandatory [] ⟨2024, 1, 1, 0, 0, 0, 0⟩
    (by simp [CommandResult.ok, CommandResult.status])

/-! ## Backup-state tracking and the legacy-repository migration -/

/-- Modelled from the spec: `config.py` is absent from the source tree; it
reserves one repository name as the legacy sentinel identity
(`LEGACY_REPO_NAME`) from the single-repository era.  The concrete string
value is immaterial to the claims. -/
def LEGACY_REPO_NAME : String := "snapborg_legacy"

/-- Modelled from the spec: the sentinel backend return code for "archive
name already exists" (`BORG_RETURNCODE_ARCHIVE_EXISTS`, imported by
`commands/snapborg.py` from the repo's borg module; the numeric value is
immaterial to the claims). -/
def BORG_RETURNCODE_ARCHIVE_EXISTS : Int := 30

/-- `SnapperSnapshot.set_backup_status` (`snapper.py`): the effect on the
in-memory `_is_backed_up` set — add the repository name when `status` is
true, discard it otherwise.  (The synchronous write-back through
`run_snapper` is external I/O and is not modelled.) -/
def set_backup_status (tags : Finset String) (repo : String) (status : Bool) : Finset String :=
  if status then insert repo tags else tags.erase repo

/-- `backup_snapshot` (`commands/snapborg.py`): transfer of one snapshot to
one borg repository.  The outcomes of the external borg `delete` (attempted
only when `recreate`) and `create` calls are inputs: `none` is success,
`some rc` is `BorgExecutionException(rc)`, and either exception is handled by
the function's single `except BorgExecutionException` block.  Returns the
snapshot's updated `_is_backed_up` tag set together with the per-candidate
result status. -/
def backup_snapshot (recreate : Bool) (delete_rc : Option Int) (backup_rc : Option Int)
    (is_old_config : Bool) (repo : String) (tags : Finset String) :
    Finset String × ResultStatus :=
  let handler : Int → Finset String → Finset String × ResultStatus := fun rc t =>
    if rc = BORG_RETURNCODE_ARCHIVE_EXISTS ∧ is_old_config = false ∧ LEGACY_REPO_NAME ∈ t then
      (set_backup_status (set_backup_status t repo true) LEGACY_REPO_NAME false, .WARN)
    else (t, .ERR)
  if recreate then
    match delete_rc with
    | some rc => handler rc tags
    | none =>
      let tags1 := set_backup_status tags repo false
      match backup_rc with
      | some rc => handler rc tags1
      | none => (set_backup_status tags1 repo true, .OK)
  else
    match backup_rc with
    | some rc => handler rc tags
    | none => (set_backup_status tags repo true, .OK)

/-- C6: for a snapshot tagged only with the legacy sentinel, an
archive-creation failure with the "archive already exists" code against a
new-style (not old-config) repository with a name distinct from the sentinel
sets the new repository's tag, clears the legacy tag (result WARN), and the
transition can fire at most once: afterwards the triggering condition no
longer holds, so a second identical failure leaves the tags unchanged and
reports ERR. -/
theorem legacy_migration_once (repo : String) (tags : Finset String) (rc : Int)
    (h1 : tags = {LEGACY_REPO_NAME}) (h2 : rc = BORG_RETURNCODE_ARCHIVE_EXISTS)
    (h3 : repo ≠ LEGACY_REPO_NAME) :
    (repo ∈ (backup_snapshot false none (some rc) false repo tags).1 ∧
      LEGACY_REPO_NAME ∉ (backup_snapshot false none (some rc) false repo tags).1 ∧
      (backup_snapshot false none (some rc) false repo tags).2 = .WARN) ∧
    (backup_snapshot false none (some rc) false repo
        (backup_snapshot false none (some rc) false repo tags).1 =
      ((backup_snapshot false none (some rc) false repo tags).1, .ERR)) := by
  subst h1 h2
  have hmem : LEGACY_REPO_NAME ∈ ({LEGACY_REPO_NAME} : Finset String) := Finset.mem_singleton_self _
  have hstep : backup_snapshot false none (some BORG_RETURNCODE_ARCHIVE_EXISTS) false repo
      {LEGACY_REPO_NAME} =
      ((insert repo ({LEGACY_REPO_NAME} : Finset String)).erase LEGACY_REPO_NAME, .WARN) := by
    unfold backup_snapshot set_backup_status
    simp [hmem]
  rw [hstep]
  have hnew : ((insert repo ({LEGACY_REPO_NAME} : Finset String)).erase LEGACY_REPO_NAME) =
      {repo} := by
    ext a
    simp only [Finset.mem_erase, Finset.mem_insert, Finset.mem_singleton]
    constructor
    · rintro ⟨hne, h | h⟩
      · exact h
      · exact absurd h hne
    · rintro rfl
      exact ⟨h3, Or.inl rfl⟩
  rw [hnew]
  refine ⟨⟨Finset.mem_singleton_self _, ?_, rfl⟩, ?_⟩
  · simp [Finset.mem_singleton]
    exact fun hc => h3 hc.symm
  · have hnot : LEGACY_REPO_NAME ∉ ({repo} : Finset String) := by
      simp [Finset.mem_singleton]
      exact fun hc => h3 hc.symm
    unfold backup_snapshot set_backup_status
    simp [hnot]

theorem legacy_migration_once_witness :
    ("repoA" ∈ (backup_snapshot false none (some 30) false "repoA" {LEGACY_REPO_NAME}).1 ∧
      LEGACY_REPO_NAME ∉ (backup_snapshot false none (some 30) false "repoA" {LEGACY_REPO_NAME}).1 ∧
      (backup_snapshot false none (some 30) false "repoA" {LEGACY_REPO_NAME}).2 = .WARN) ∧
    (backup_snapshot false none (some 30) false "repoA"
        (backup_snapshot false none (some 30) false "repoA" {LEGACY_REPO_NAME}).1 =
      ((backup_snapshot false none (some 30) false "repoA" {LEGACY_REPO_NAME}).1, .ERR)) :=
  legacy_migration_once "repoA" {LEGACY_REPO_NAME} 30 rfl rfl (by decide)

/-! ## Persisted backup-tag encoding (`snapper.py`) -/

/-- The characters stripped by Python's no-argument `str.strip()`: exactly
the characters for which `str.isspace()` holds — `\t`-`\r`, the information
separators `\x1c`-`\x1f`, space, next line `\x85`, no-break space `\xa0`,
and the Unicode space and line/paragraph separators. -/
def pyWhitespace : List Char :=
  ['\t', '\n', '\x0b', '\x0c', '\r', '\x1c', '\x1d', '\x1e', '\x1f', ' ', '\x85', '\xa0',
   '\u1680', '\u2000', '\u2001', '\u2002', '\u2003', '\u2004', '\u2005', '\u2006', '\u2007',
   '\u2008', '\u2009', '\u200a', '\u2028', '\u2029', '\u202f', '\u205f', '\u3000']

/-- Python `s.lstrip(chars)` over `List Char`. -/
def lstripChars (cs : List Char) (s : List Char) : List Char :=
  s.dropWhile (fun c => c ∈ cs)

/-- Python `s.rstrip(chars)` over `List Char`. -/
def rstripChars (cs : List Char) (s : List Char) : List Char :=
  (s.reverse.dropWhile (fun c => c ∈ cs)).reverse

/-- Python `s.strip()` over `List Char`. -/
def stripWS (s : List Char) : List Char :=
  rstripChars pyWhitespace (lstripChars pyWhitespace s)

/-- Python `s.split(";")` over `List Char`; note `"".split(";") == [""]`. -/
def splitSemi : List Char → List (List Char)
  | [] => [[]]
  | a :: as =>
    match splitSemi as with
    | [] => [[]]
    | g :: gs => if a = ';' then [] :: g :: gs else (a :: g) :: gs

/-- Python `';'.join(names)` over `List Char`. -/
def joinSemi : List (List Char) → List Char
  | [] => []
  | [n] => n
  | n :: ns => n ++ ';' :: joinSemi ns

/-- The `snapborg_backup_repos` userdata value written by
`SnapperSnapshot.set_backup_status` (`snapper.py`):
`'[' + ';'.join(is_backed_up) + ']'`; the in-memory set is modelled as a list
of names (a Python `set` iterates in some order). -/
def serialize_tags (names : List (List Char)) : List Char :=
  '[' :: (joinSemi names ++ [']'])

/-- The parse of the `snapborg_backup_repos` userdata value in
`SnapperSnapshot.__init__` (`snapper.py`):
`value.lstrip(" [").rstrip(" ]").split(";")`, with each piece `.strip()`ped
before being added to the `_is_backed_up` set. -/
def parse_tags (s : List Char) : List (List Char) :=
  (splitSemi (rstripChars [' ', ']'] (lstripChars [' ', '['] s))).map stripWS

/-- The boundary character of a name (its `head?` or `getLast?`) is neither
whitespace nor the given bracket character. -/
def boundaryOK (o : Option Char) (bracket : Char) : Prop :=
  match o with
  | none => True
  | some c => c ∉ pyWhitespace ∧ c ≠ bracket

instance (o : Option Char) (bracket : Char) : Decidable (boundaryOK o bracket) := by
  unfold boundaryOK
  cases o with
  | none => exact Decidable.isTrue trivial
  | some c => infer_instance

theorem boundaryOK_spec {o : Option Char} {bracket : Char} (h : boundaryOK o bracket) :
    ∀ c, o = some c → c ∉ pyWhitespace ∧ c ≠ bracket := by
  intro c hc
  rw [hc] at h
  exact h

/-- A repository name for which the tag encoding is faithful: nonempty, free
of the separator `';'`, not beginning or ending in whitespace, not beginning
with `'['` and not ending with `']'`. -/
def GoodRepoName (n : List Char) : Prop :=
  n ≠ [] ∧ ';' ∉ n ∧ boundaryOK n.head? '[' ∧ boundaryOK n.getLast? ']'

instance (n : List Char) : Decidable (GoodRepoName n) := by
  unfold GoodRepoName
  infer_instance

theorem dropWhile_eq_self_of_head {p : Char → Bool} {n : List Char}
    (h : ∀ c, n.head? = some c → p c = false) : n.dropWhile p = n := by
  cases n with
  | nil => rfl
  | cons a t =>
    rw [List.dropWhile_cons, h a rfl]
    simp

theorem rstripChars_eq_self {cs : List Char} {n : List Char}
    (h : ∀ c, n.getLast? = some c → (c ∈ cs) = False) : rstripChars cs n = n := by
  unfold rstripChars
  rw [dropWhile_eq_self_of_head, List.reverse_reverse]
  intro c hc
  rw [List.head?_reverse] at hc
  simp [h c hc]

theorem lstripChars_eq_self {cs : List Char} {n : List Char}
    (h : ∀ c, n.head? = some c → (c ∈ cs) = False) : lstripChars cs n = n := by
  unfold lstripChars
  rw [dropWhile_eq_self_of_head]
  intro c hc
  simp [h c hc]

theorem stripWS_eq_self {n : List Char}
    (hh : ∀ c, n.head? = some c → c ∉ pyWhitespace)
    (hl : ∀ c, n.getLast? = some c → c ∉ pyWhitespace) : stripWS n = n := by
  unfold stripWS
  rw [lstripChars_eq_self (by intro c hc; simp [hh c hc]),
    rstripChars_eq_self (by intro c hc; simp [hl c hc])]

theorem splitSemi_ne_nil (s : List Char) : splitSemi s ≠ [] := by
  induction s with
  | nil => simp [splitSemi]
  | cons a t ih =>
    rw [splitSemi]
    rcases hs : splitSemi t with _ | ⟨g, gs⟩
    · simp
    · split_ifs <;> simp

theorem splitSemi_no_semi {n : List Char} (h : ';' ∉ n) : splitSemi n = [n] := by
  induction n with
  | nil => rfl
  | cons a t ih =>
    have ha : a ≠ ';' := fun hc => h (hc ▸ List.mem_cons_self a t)
    have ht : ';' ∉ t := fun hc => h (List.mem_cons_of_mem a hc)
    rw [splitSemi, ih ht]
    simp [ha]

theorem splitSemi_append {n rest : List Char} (h : ';' ∉ n) :
    splitSemi (n ++ ';' :: rest) = n :: splitSemi rest := by
  induction n with
  | nil =>
    rw [List.nil_append, splitSemi]
    rcases hs : splitSemi rest with _ | ⟨g, gs⟩
    · exact absurd hs (splitSemi_ne_nil rest)
    · simp
  | cons a t ih =>
    have ha : a ≠ ';' := fun hc => h (hc ▸ List.mem_cons_self a t)
    have ht : ';' ∉ t := fun hc => h (List.mem_cons_of_mem a hc)
    rw [List.cons_append, splitSemi, ih ht]
    simp [ha]

theorem joinSemi_ne_nil {names : List (List Char)} (h1 : names ≠ [])
    (h2 : ∀ n ∈ names, n ≠ []) : joinSemi names ≠ [] := by
  cases names with
  | nil => exact absurd rfl h1
  | cons n ns =>
    cases ns with
    | nil => exact h2 n (List.mem_cons_self _ _)
    | cons m ms => simp [joinSemi, h2 n (List.mem_cons_self _ _)]

theorem splitSemi_joinSemi {names : List (List Char)} (h1 : names ≠ [])
    (h2 : ∀ n ∈ names, ';' ∉ n) : splitSemi (joinSemi names) = names := by
  induction names with
  | nil => exact absurd rfl h1
  | cons n ns ih =>
    cases ns with
    | nil => exact splitSemi_no_semi (h2 n (List.mem_cons_self _ _))
    | cons m ms =>
      have : joinSemi (n :: m :: ms) = n ++ ';' :: joinSemi (m :: ms) := rfl
      rw [this, splitSemi_append (h2 n (List.mem_cons_self _ _)),
        ih (by simp) (fun q hq => h2 q (List.mem_cons_of_mem n hq))]

theorem joinSemi_head? {names : List (List Char)} (h1 : names ≠ [])
    (h2 : ∀ n ∈ names, n ≠ []) :
    (joinSemi names).head? = (names.headI).head? := by
  cases names with
  | nil => exact absurd rfl h1
  | cons n ns =>
    cases ns with
    | nil => rfl
    | cons m ms =>
      have : joinSemi (n :: m :: ms) = n ++ ';' :: joinSemi (m :: ms) := rfl
      rw [this]
      cases hn : n with
      | nil => exact absurd hn (h2 n (List.mem_cons_self _ _))
      | cons a t => simp [List.headI]

theorem joinSemi_getLast? {names : List (List Char)} (h1 : names ≠ [])
    (h2 : ∀ n ∈ names, n ≠ []) :
    (joinSemi names).getLast? = (names.getLast (by exact h1)).getLast? := by
  induction names with
  | nil => exact absurd rfl h1
  | cons n ns ih =>
    cases ns with
    | nil => simp [joinSemi]
    | cons m ms =>
      have hj : joinSemi (n :: m :: ms) = n ++ ';' :: joinSemi (m :: ms) := rfl
      have hne : joinSemi (m :: ms) ≠ [] :=
        joinSemi_ne_nil (by simp) (fun q hq => h2 q (List.mem_cons_of_mem n hq))
      have hsc : (';' :: joinSemi (m :: ms)) = [';'] ++ joinSemi (m :: ms) := rfl
      rw [hj, List.getLast?_append_cons, hsc, List.getLast?_append_of_ne_nil _ hne,
        ih (by simp) (fun q hq => h2 q (List.mem_cons_of_mem n hq))]
      congr 1

theorem tag_roundtrip_core (names : List (List Char)) (hne : names ≠ [])
    (hgood : ∀ n ∈ names, GoodRepoName n) :
    parse_tags (serialize_tags names) = names := by
  have hnn : ∀ n ∈ names, n ≠ [] := fun n hn => (hgood n hn).1
  have hjne : joinSemi names ≠ [] := joinSemi_ne_nil hne hnn
  have hl : lstripChars [' ', '['] (serialize_tags names) = joinSemi names ++ [']'] := by
    unfold serialize_tags lstripChars
    rw [List.dropWhile_cons, if_pos (by decide)]
    apply dropWhile_eq_self_of_head
    intro c hc
    obtain ⟨n0, rest, rfl⟩ := List.exists_cons_of_ne_nil hne
    have hn0 : n0 ≠ [] := hnn n0 (List.mem_cons_self _ _)
    obtain ⟨a, t, rfl⟩ := List.exists_cons_of_ne_nil hn0
    have hj : joinSemi ((a :: t) :: rest) ≠ [] := hjne
    have hhead : (joinSemi ((a :: t) :: rest)).head? = some a := by
      rw [joinSemi_head? (by simp) hnn]
      rfl
    rcases hjv : joinSemi ((a :: t) :: rest) with _ | ⟨b, u⟩
    · exact absurd hjv hj
    · rw [hjv] at hc hhead
      simp only [List.cons_append, List.head?_cons, Option.some.injEq] at hc hhead
      obtain ⟨hws, hbr⟩ := boundaryOK_spec (hgood (a :: t) (List.mem_cons_self _ _)).2.2.1 a rfl
      have hca : c = a := hc ▸ hhead
      subst hca
      simp only [decide_eq_false_iff_not, List.mem_cons, List.not_mem_nil, or_false]
      rintro (rfl | rfl)
      · exact hws (by decide)
      · exact hbr rfl
  have hr : rstripChars [' ', ']'] (joinSemi names ++ [']']) = joinSemi names := by
    unfold rstripChars
    rw [List.reverse_append]
    simp only [List.reverse_cons, List.reverse_nil, List.nil_append, List.singleton_append]
    rw [List.dropWhile_cons, if_pos (by decide)]
    rw [dropWhile_eq_self_of_head ?hh, List.reverse_reverse]
    case hh =>
      intro c hc
      rw [List.head?_reverse] at hc
      rw [joinSemi_getLast? hne hnn] at hc
      obtain ⟨hws, hbr⟩ := boundaryOK_spec (hgood _ (List.getLast_mem hne)).2.2.2 c hc
      simp only [decide_eq_false_iff_not, List.mem_cons, List.not_mem_nil, or_false]
      rintro (rfl | rfl)
      · exact hws (by decide)
      · exact hbr rfl
  unfold parse_tags
  rw [hl, hr, splitSemi_joinSemi hne (fun n hn => (hgood n hn).2.1)]
  conv_rhs => rw [← List.map_id names]
  apply List.map_congr_left
  intro n hn
  exact stripWS_eq_self (fun c hc => (boundaryOK_spec (hgood n hn).2.2.1 c hc).1)
    (fun c hc => (boundaryOK_spec (hgood n hn).2.2.2 c hc).1)

/-- C10 counterexample: the empty tag set (reachable by
`set_backup_status(repo, False)` on a singly-tagged snapshot) serializes to
`"[]"`, which parses back to the singleton set containing the empty string,
not to the empty set. -/
theorem tag_roundtrip_empty_fails :
    (parse_tags (serialize_tags [])).toFinset ≠ (([] : List (List Char)).toFinset) := by
  decide

/-- C10 (amended): for every nonempty set of repository names that are
nonempty, `';'`-free, have no leading or trailing whitespace, do not begin
with `'['` and do not end with `']'`, parsing the serialized
`'[' + ';'.join(S) + ']'` tag value the way `SnapperSnapshot.__init__` does
yields exactly the set back. -/
theorem tag_roundtrip_valid_names (names : List (List Char)) (hne : names ≠ [])
    (hgood : ∀ n ∈ names, GoodRepoName n) :
    (parse_tags (serialize_tags names)).toFinset = names.toFinset := by
  rw [tag_roundtrip_core names hne hgood]

theorem tag_roundtrip_valid_names_witness :
    (parse_tags (serialize_tags [['a'], ['r', 'b']])).toFinset =
      ([['a'], ['r', 'b']] : List (List Char)).toFinset :=
  tag_roundtrip_valid_names [['a'], ['r', 'b']] (by decide) (by decide)
